import Mathlib

/-!
Verification model of the recurrences package: the term data model
(types.py), the numeric utilities (utils.py), the grammar parser
(parser.py), the characteristic-root solver (solver.py) and the
formatter (formatter.py).

Modelling conventions:
* IEEE doubles are modelled as exact rationals; every coefficient,
  shift and threshold that the verified statements touch is exactly
  representable, and all comparisons the statements exercise agree
  with the double-precision ones of the source.
* Strings are modelled as lists of characters; the top-level API
  takes and returns Lean strings.
* Exceptions (ParseError, ValueError) are modelled as error results.
* The unbounded-precision parts of the solver (the scipy bracketed
  root finder and the Newton fast path) are not modelled bit for bit:
  the solver model is split into the exactly-computable branch phase,
  a symbolic characteristic function, and the exactly-computable
  postprocessing of a converged root.
-/

namespace Recurrences

/-! ### types.py : the term data model -/

/-- A function call with coefficient, as in types.py.
Fields mirror the dataclass FunctionTerm: coef, func, vars, shifts. -/
structure FunctionTerm where
  coef : ℚ
  func : List Char
  vars : List (List Char)
  shifts : List ℚ
deriving DecidableEq

/-- The closed two-variant union of rhs terms: FunctionTerm or ConstantTerm. -/
inductive Term where
  | fn (t : FunctionTerm)
  | const (coef : ℚ)
deriving DecidableEq

/-- A recurrence relation lhs = sum(rhs), as in types.py. -/
structure Recurrence where
  lhs : FunctionTerm
  rhs : List Term
deriving DecidableEq

/-- The checked constructor of FunctionTerm: dataclass construction runs
post-init validation and raises ValueError when vars and shifts have
different lengths. -/
def FunctionTerm.make (coef : ℚ) (func : List Char) (vars : List (List Char))
    (shifts : List ℚ) : Except String FunctionTerm :=
  if vars.length ≠ shifts.length then
    .error "vars and shifts must have same length"
  else
    .ok ⟨coef, func, vars, shifts⟩

/-- The checked constructor of Recurrence: post-init validation raises
ValueError when lhs.coef is not 1 or some lhs shift is nonzero. -/
def Recurrence.make (lhs : FunctionTerm) (rhs : List Term) :
    Except String Recurrence :=
  if lhs.coef ≠ 1 then
    .error "lhs.coef must be 1"
  else if lhs.shifts.any (fun s => s ≠ 0) then
    .error "lhs.shifts must all be 0"
  else
    .ok ⟨lhs, rhs⟩

/-- A float-domain result value: a finite rational or positive infinity.
Models the Root domain of the source, where divergence is encoded as
IEEE positive infinity. -/
inductive FloatVal where
  | fin (q : ℚ)
  | inf
deriving DecidableEq

/-! ### utils.py : numeric utilities -/

/-- Round-half-to-even of a rational to an integer; models the rounding
used by the builtin round on the exact value of a double. -/
def roundHalfEven (q : ℚ) : ℤ :=
  let f := ⌊q⌋
  let r := q - f
  if r < 1/2 then f
  else if r > 1/2 then f + 1
  else if 2 ∣ f then f else f + 1

/-- snap_int from utils.py at the default ndigits = 6: round the value to
6 decimal places; if the rounded value is an integer return that integer,
otherwise return the rounded value. (The non-finite early return of the
source does not arise in the rational model.) -/
def snap_int (val : ℚ) : ℚ :=
  let rounded : ℚ := (roundHalfEven (val * 1000000) : ℚ) / 1000000
  if rounded.den = 1 then (rounded.num : ℚ) else rounded

/-- Decimal digits of a natural number, as characters. -/
def natToChars (n : ℕ) : List Char := (toString n).toList

/-- str(int(...)) of an integer. -/
def intToChars (i : ℤ) : List Char :=
  if i < 0 then '-' :: natToChars i.natAbs else natToChars i.natAbs

/-- Left-pad a digit string with zeros to the given length. -/
def padLeftZeros (s : List Char) (len : ℕ) : List Char :=
  List.replicate (len - s.length) '0' ++ s

/-- Fixed-point rendering of k / 10^5 with exactly five decimal places,
as the format specifier .5f produces for a value that is an exact
multiple of 10^(-5). -/
def formatFixed5 (k : ℤ) : List Char :=
  let sign : List Char := if k < 0 then ['-'] else []
  let n := k.natAbs
  sign ++ natToChars (n / 100000) ++ '.' :: padLeftZeros (natToChars (n % 100000)) 5

/-- rstrip("0") : drop all trailing zero characters. -/
def rstripZeros (s : List Char) : List Char :=
  (s.reverse.dropWhile (fun c => c = '0')).reverse

/-- rstrip(".") : drop all trailing dot characters. -/
def rstripDot (s : List Char) : List Char :=
  (s.reverse.dropWhile (fun c => c = '.')).reverse

/-- format_number from utils.py at the default digits = 5: round the
value up (ceiling) at 5 decimal digits, render with 5 decimal places,
then trim trailing zeros and a trailing decimal point. (The non-finite
early return of the source does not arise in the rational model.) -/
def format_number (x : ℚ) : List Char :=
  let k : ℤ := ⌈x * 100000⌉
  rstripDot (rstripZeros (formatFixed5 k))

/-! ### parser.py : the grammar parser -/

/-- The opening curly-brace character permitted inside identifiers. -/
def lbraceChar : Char := Char.ofNat 123

/-- The closing curly-brace character permitted inside identifiers. -/
def rbraceChar : Char := Char.ofNat 125

/-- Models the Unicode letter class of the identifier pattern,
restricted to the ASCII and Greek letter ranges that the repository
inputs exercise. -/
def isUnicodeLetter (c : Char) : Bool :=
  c.isAlpha || (0x391 ≤ c.toNat && c.toNat ≤ 0x3C9)

/-- Models the Unicode digit class of the identifier pattern, restricted
to the ASCII digits the repository inputs exercise. -/
def isUnicodeDigit (c : Char) : Bool :=
  c.isDigit

/-- A character allowed after the first position of an identifier:
letter, digit, underscore or curly brace. -/
def isIdentChar (c : Char) : Bool :=
  isUnicodeLetter c || isUnicodeDigit c || c = '_' || c = lbraceChar || c = rbraceChar

/-- is_valid_identifier from parser.py: a Unicode letter followed by
letters, digits, underscores or curly braces. -/
def is_valid_identifier : List Char → Bool
  | [] => false
  | c :: rest => isUnicodeLetter c && rest.all isIdentChar

/-- Split a character list on every occurrence of the separator,
keeping empty segments; models str.split with a one-character
separator. -/
def splitOnChar (sep : Char) : List Char → List (List Char)
  | [] => [[]]
  | c :: rest =>
    let r := splitOnChar sep rest
    if c = sep then [] :: r
    else
      match r with
      | [] => [[c]]
      | h :: t => (c :: h) :: t

/-- An unsigned numeric literal consuming the whole input: digits with
an optional fractional part, the body of the NUMBER_PATTERN regex.
Returns the value exactly when the input matches. -/
def parseUnsignedNumber (s : List Char) : Option ℚ :=
  let intDigits := s.takeWhile Char.isDigit
  let rest := s.dropWhile Char.isDigit
  if intDigits = [] then none
  else
    let intVal : ℚ := intDigits.foldl (fun acc c => 10 * acc + (c.toNat - 48 : ℕ)) 0
    match rest with
    | [] => some intVal
    | '.' :: fracs =>
      if fracs ≠ [] ∧ fracs.all Char.isDigit then
        let fracVal : ℚ := fracs.foldl (fun acc c => 10 * acc + (c.toNat - 48 : ℕ)) 0
        some (intVal + fracVal / (10 ^ fracs.length))
      else none
    | _ => none

/-- NUMBER_PATTERN plus float conversion: an optionally negative numeric
literal consuming the whole input. Returns none exactly when the
pattern does not match. -/
def parseNumber (s : List Char) : Option ℚ :=
  match s with
  | '-' :: rest => (parseUnsignedNumber rest).map (fun v => -v)
  | _ => parseUnsignedNumber s

/-- _split_rhs from parser.py: split on plus signs at parenthesis depth
zero, never emitting empty segments; depth never goes below zero. -/
def splitRhsGo (depth : ℕ) (buf : List Char) (out : List (List Char)) :
    List Char → List (List Char)
  | [] => if buf.isEmpty then out.reverse else (buf.reverse :: out).reverse
  | ch :: rest =>
    if ch = '(' then splitRhsGo (depth + 1) (ch :: buf) out rest
    else if ch = ')' then splitRhsGo (depth - 1) (ch :: buf) out rest
    else if ch = '+' ∧ depth = 0 then
      if buf.isEmpty then splitRhsGo depth [] out rest
      else splitRhsGo depth [] (buf.reverse :: out) rest
    else splitRhsGo depth (ch :: buf) out rest

/-- _split_rhs from parser.py. -/
def _split_rhs (s : List Char) : List (List Char) :=
  splitRhsGo 0 [] [] s

/-- The left-hand-side regex: a nonempty run of characters other than
an opening parenthesis, an opening parenthesis, a run of characters
other than a closing parenthesis, and a closing parenthesis ending the
input. Returns the function-name part and the argument part. -/
def matchLhs (s : List Char) : Option (List Char × List Char) :=
  let a := s.takeWhile (fun c => c ≠ '(')
  match s.dropWhile (fun c => c ≠ '(') with
  | '(' :: rest =>
    if a = [] then none
    else
      match rest.reverse with
      | ')' :: revMid =>
        let mid := revMid.reverse
        if mid.any (fun c => c = ')') then none else some (a, mid)
      | _ => none
  | _ => none

/-- Validate the left-hand-side argument names in order, rejecting
invalid identifiers and duplicates, as the lhs loop of parse_recurrence
does. -/
def collectVars : List (List Char) → List (List Char) → Except String (List (List Char))
  | [], acc => .ok acc
  | arg :: rest, acc =>
    if ¬ is_valid_identifier arg then
      .error ("Invalid variable name: " ++ String.mk arg)
    else if arg ∈ acc then
      .error ("Duplicate variable name: " ++ String.mk arg)
    else
      collectVars rest (acc ++ [arg])

/-- The leading optional coefficient group of the term regex: an
optionally negative numeric literal read by maximal munch, returning
the value and the rest of the input. Maximal munch agrees with the
backtracking regex because an identifier can never start with a digit
and a shorter number match would leave a digit or a dot where the
regex next requires a star or a letter. -/
def readNumberFront (s : List Char) : Option (ℚ × List Char) :=
  let signed : Bool × List Char :=
    match s with
    | '-' :: rest => (true, rest)
    | _ => (false, s)
  let body := signed.2
  let intDigits := body.takeWhile Char.isDigit
  let rest1 := body.dropWhile Char.isDigit
  if intDigits = [] then none
  else
    let intVal : ℚ := intDigits.foldl (fun acc c => 10 * acc + (c.toNat - 48 : ℕ)) 0
    let withSign : ℚ → ℚ := fun v => if signed.1 then -v else v
    match rest1 with
    | '.' :: r2 =>
      let fracs := r2.takeWhile Char.isDigit
      let rest2 := r2.dropWhile Char.isDigit
      if fracs = [] then none
      else
        let fracVal : ℚ := fracs.foldl (fun acc c => 10 * acc + (c.toNat - 48 : ℕ)) 0
        some (withSign (intVal + fracVal / (10 ^ fracs.length)), rest2)
    | _ => some (withSign intVal, rest1)

/-- The identifier group of the term regex read by maximal munch: a
letter followed by identifier characters. Maximal munch agrees with
the regex because the character the regex requires next, an opening
parenthesis, is never an identifier character. -/
def readIdentFront (s : List Char) : Option (List Char × List Char) :=
  match s with
  | [] => none
  | c :: rest =>
    if isUnicodeLetter c then
      some (c :: rest.takeWhile isIdentChar, rest.dropWhile isIdentChar)
    else none

/-- The full term regex of _parse_term: an optional coefficient with an
optional star, an identifier, and a parenthesised argument list ending
the input. Returns the optional coefficient, the name and the argument
text. -/
def matchTermPattern (s : List Char) : Option (Option ℚ × List Char × List Char) :=
  let afterCoef : Option ℚ × List Char :=
    match readNumberFront s with
    | some (v, rest) =>
      match rest with
      | '*' :: r2 => (some v, r2)
      | _ => (some v, rest)
    | none => (none, s)
  match readIdentFront afterCoef.2 with
  | none => none
  | some (name, rest) =>
    match rest with
    | '(' :: r =>
      match r.reverse with
      | ')' :: revMid =>
        let mid := revMid.reverse
        if mid.any (fun c => c = ')') then none
        else some (afterCoef.1, name, mid)
      | _ => none
    | _ => none

/-- _parse_shift from parser.py: the argument must be the expected
variable, optionally followed by a sign and a numeric literal; the
signed value is the shift, defaulting to zero. -/
def _parse_shift (arg : List Char) (var : List Char) (summand : List Char) :
    Except String ℚ :=
  if arg.take var.length = var then
    match arg.drop var.length with
    | [] => .ok 0
    | c :: rest =>
      if c = '+' ∨ c = '-' then
        match parseUnsignedNumber rest with
        | some v => .ok (if c = '-' then -v else v)
        | none => .error ("Invalid argument " ++ String.mk arg ++ " in term " ++ String.mk summand)
      else .error ("Invalid argument " ++ String.mk arg ++ " in term " ++ String.mk summand)
  else .error ("Invalid argument " ++ String.mk arg ++ " in term " ++ String.mk summand)

/-- The shift loop of _parse_term: parse a shift for each argument
against the corresponding lhs variable. -/
def parseShifts : List (List Char) → List (List Char) → List Char → Except String (List ℚ)
  | [], _, _ => .ok []
  | arg :: args, var :: vars, summand => do
    let s ← _parse_shift arg var summand
    let rest ← parseShifts args vars summand
    .ok (s :: rest)
  | _ :: _, [], _ => .error "internal arity mismatch"

/-- _parse_term from parser.py: a numeric literal is a constant term;
otherwise the summand must match the term regex, use the lhs function
name, have the lhs arity, and have well-formed shift arguments. -/
def _parse_term (summand : List Char) (func : List Char) (vars_list : List (List Char)) :
    Except String Term :=
  match parseNumber summand with
  | some v => .ok (Term.const v)
  | none =>
    match matchTermPattern summand with
    | none => .error ("Invalid term: " ++ String.mk summand)
    | some (coefOpt, fn_name, args_str) =>
      let coef := coefOpt.getD 1
      if ¬ is_valid_identifier fn_name then
        .error ("Invalid function name: " ++ String.mk fn_name)
      else if fn_name ≠ func then
        .error ("Term " ++ String.mk summand ++ " uses different function name")
      else
        let args_raw := splitOnChar ',' args_str
        if args_raw.length ≠ vars_list.length then
          .error ("Term " ++ String.mk summand ++ " has wrong arity, expected " ++
            toString vars_list.length)
        else do
          let shifts ← parseShifts args_raw vars_list summand
          .ok (Term.fn ⟨coef, func, vars_list, shifts⟩)

/-- Insertion-ordered association-list update, modelling the dict update
function_map[key] = function_map.get(key, 0.0) + coef: an existing key
keeps its position, a new key is appended at the end. -/
def upsert (m : List (List ℚ × ℚ)) (key : List ℚ) (c : ℚ) : List (List ℚ × ℚ) :=
  match m with
  | [] => [(key, c)]
  | (k, v) :: rest => if k = key then (k, v + c) :: rest else (k, v) :: upsert rest key c

/-- The cancellation threshold used by the normalizer. -/
def EPS : ℚ := 1 / 1000000000000

/-- The constant_sum accumulation of _combine_terms: the running sum of
all constant-term coefficients. -/
def constFold (raw_terms : List Term) : ℚ :=
  raw_terms.foldl (fun acc t =>
    match t with
    | Term.const c => acc + c
    | Term.fn _ => acc) 0

/-- The function_map accumulation of _combine_terms: the
insertion-ordered dict from shift vector to summed coefficient. -/
def fnMapFold (raw_terms : List Term) : List (List ℚ × ℚ) :=
  raw_terms.foldl (fun m t =>
    match t with
    | Term.const _ => m
    | Term.fn ft => upsert m ft.shifts ft.coef) []

/-- _combine_terms from parser.py: sum the constants, group function
terms by shift vector summing coefficients (the single pass of the
source is split into its two independent accumulations), then emit the
combined constant when its magnitude exceeds the threshold followed by
the grouped function terms in first-occurrence order, skipping those
whose magnitude is below the threshold. -/
def _combine_terms (raw_terms : List Term) (vars_list : List (List Char))
    (func : List Char) : List Term :=
  (if |constFold raw_terms| > EPS then [Term.const (constFold raw_terms)] else []) ++
    (fnMapFold raw_terms).filterMap (fun kv =>
      if |kv.2| < EPS then none
      else some (Term.fn ⟨kv.2, func, vars_list, kv.1⟩))

/-- The rhs term loop of parse_recurrence: a single summand matching the
numeric pattern is a constant, otherwise every summand goes through
_parse_term. -/
def parseRawTerms (summands : List (List Char)) (func : List Char)
    (vars_list : List (List Char)) : Except String (List Term) :=
  match summands with
  | [s] =>
    match parseNumber s with
    | some v => .ok [Term.const v]
    | none => (_parse_term s func vars_list).map (fun t => [t])
  | _ => summands.mapM (fun s => _parse_term s func vars_list)

/-- parse_recurrence from parser.py: strip whitespace, split on the
equals sign, parse and validate the lhs signature, split the rhs on
depth-zero plus signs, parse each summand and combine like terms. -/
def parse_recurrence (text : String) : Except String Recurrence :=
  let cleaned := text.toList.filter (fun c => ¬ c.isWhitespace)
  if cleaned = [] then .error "Empty input"
  else
    match splitOnChar '=' cleaned with
    | [lhs_str, rhs_str] =>
      if lhs_str = [] then .error "Empty left-hand side"
      else if rhs_str = [] then .error "Empty right-hand side"
      else
        match matchLhs lhs_str with
        | none => .error ("Invalid left-hand side: " ++ String.mk lhs_str)
        | some (func, raw_args_str) =>
          if ¬ is_valid_identifier func then
            .error ("Invalid function name: " ++ String.mk func)
          else
            let raw_args := (splitOnChar ',' raw_args_str).filter (fun a => a ≠ [])
            if raw_args = [] then .error ("No arguments in " ++ String.mk lhs_str)
            else do
              let vars_list ← collectVars raw_args []
              let lhs : FunctionTerm :=
                ⟨1, func, vars_list, List.replicate vars_list.length 0⟩
              let summands := (_split_rhs rhs_str).filter (fun t => t ≠ [])
              if summands = [] then .error "Empty right-hand side"
              else do
                let raw_terms ← parseRawTerms summands func vars_list
                .ok ⟨lhs, _combine_terms raw_terms vars_list func⟩
    | _ => .error ("Expected exactly one equals sign: " ++ text)

/-! ### formatter.py : rendering recurrences and asymptotics -/

/-- Join character lists with a separator, modelling str.join. -/
def joinWith (sep : List Char) : List (List Char) → List Char
  | [] => []
  | [x] => x
  | x :: xs => x ++ sep ++ joinWith sep xs

/-- The readability rewrite of format_recurrence: replace every
occurrence of the four characters space plus space minus by space
minus space, scanning left to right and continuing after each
replacement, as str.replace does. -/
def replacePlusMinus : List Char → List Char
  | ' ' :: '+' :: ' ' :: '-' :: rest => ' ' :: '-' :: ' ' :: replacePlusMinus rest
  | c :: rest => c :: replacePlusMinus rest
  | [] => []

/-- _format_constant from formatter.py: an exact integer renders as its
integer string, anything else through format_number. -/
def _format_constant (coef : ℚ) : List Char :=
  if coef.den = 1 then intToChars coef.num else format_number coef

/-- _format_function_term from formatter.py: coefficient rendered as
nothing for one, a bare minus for minus one, else value and star; each
argument as the variable alone, variable minus magnitude for a
negative shift, variable plus value for a positive shift. -/
def _format_function_term (t : FunctionTerm) : List Char :=
  let coef_str : List Char :=
    if t.coef = 1 then []
    else if t.coef = -1 then ['-']
    else _format_constant t.coef ++ ['*']
  let args : List (List Char) :=
    (t.vars.zip t.shifts).map (fun vs =>
      if vs.2 = 0 then vs.1
      else if vs.2 < 0 then vs.1 ++ '-' :: _format_constant (-vs.2)
      else vs.1 ++ '+' :: _format_constant vs.2)
  coef_str ++ t.func ++ '(' :: (joinWith (", ".toList) args ++ [')'])

/-- format_recurrence from formatter.py: lhs signature, equals sign,
then the rhs terms joined with plus separators and the plus-minus
rewrite applied; an empty rhs renders as zero. -/
def format_recurrence (rec : Recurrence) : String :=
  let lhs : List Char :=
    rec.lhs.func ++ '(' :: (joinWith (", ".toList) rec.lhs.vars ++ [')'])
  if rec.rhs = [] then String.mk (lhs ++ (" = 0".toList))
  else
    let rhs_parts : List (List Char) :=
      rec.rhs.map (fun t =>
        match t with
        | Term.const c => _format_constant c
        | Term.fn ft => _format_function_term ft)
    let rhs := replacePlusMinus (joinWith (" + ".toList) rhs_parts)
    String.mk (lhs ++ (" = ".toList) ++ rhs)

/-- format_asymptotics from formatter.py: requires exactly one lhs
variable; an infinite root renders the divergence marker, a root equal
to one renders the constant marker, and any other root renders the
big-O base-power shape with the base through format_number. -/
def format_asymptotics (rec : Recurrence) (root : FloatVal) : Except String String :=
  if rec.lhs.vars.length ≠ 1 then
    .error "only single-variable recurrences are supported"
  else
    match root with
    | FloatVal.inf => .ok "O(∞)"
    | FloatVal.fin q =>
      if q = 1 then .ok "O(1)"
      else
        .ok (String.mk (("O(".toList) ++ format_number q ++
          '^' :: (rec.lhs.vars.headD [] ++ [')'])))

/-! ### solver.py : the characteristic-root solver -/

/-- The large finite penalty value returned when no valid root exists. -/
def PENALTY : ℚ := 1000000

/-- Where a solver run ends in the exactly-computable phase: an
unsupported-input failure (a raised ValueError), a directly returned
value, or a handoff to the bracketed numeric root finder with the
coefficient and delta vectors it searches over. -/
inductive SolveOutcome where
  | unsupported (msg : String)
  | done (r : FloatVal)
  | rootFind (coefs : List ℚ) (deltas : List ℚ)
deriving DecidableEq

/-- Minimum of a list of rationals, modelling the numpy minimum over a
nonempty array. -/
def minList (l : List ℚ) : ℚ := l.foldl min (l.headD 0)

/-- The branch phase of find_root from solver.py: an empty delta list
is divergent, a single delta solves at one, a non-positive minimum
delta among two or more is infeasible, and otherwise the search is
handed to the bracketed root finder over unit coefficients. -/
def find_root_pre (deltas : List ℚ) : SolveOutcome :=
  let m := deltas.length
  if m = 0 then .done FloatVal.inf
  else if m = 1 then .done (FloatVal.fin 1)
  else if minList deltas ≤ 0 then .done (FloatVal.fin PENALTY)
  else .rootFind (List.replicate m 1) deltas

/-- The function terms of the rhs, in order, as extracted by
solve_recurrence. -/
def funcTermsOf (rec : Recurrence) : List FunctionTerm :=
  rec.rhs.filterMap (fun t =>
    match t with
    | Term.fn ft => some ft
    | Term.const _ => none)

/-- The coefficient vector solve_recurrence builds. -/
def coefsOf (rec : Recurrence) : List ℚ :=
  (funcTermsOf rec).map (fun t => t.coef)

/-- The delta vector solve_recurrence builds: delta is the negated
first shift of each retained function term. -/
def deltasOf (rec : Recurrence) : List ℚ :=
  (funcTermsOf rec).map (fun t => -(t.shifts.headD 0))

/-- The value of the characteristic function at one, as
solve_recurrence evaluates it: the coefficient sum minus one. -/
def g1Of (rec : Recurrence) : ℚ :=
  (coefsOf rec).sum - 1

/-- The branch phase of solve_recurrence from solver.py: reject
multi-variable input, return one when no function terms remain, return
the penalty when some delta is non-positive, return one when the
characteristic value at one is within the threshold, return the
penalty when it is below minus the threshold, and otherwise hand the
search to the bracketed root finder. -/
def solve_recurrence_pre (rec : Recurrence) : SolveOutcome :=
  if rec.lhs.vars.length ≠ 1 then
    .unsupported "Only single-variable recurrences are supported"
  else if funcTermsOf rec = [] then .done (FloatVal.fin 1)
  else if (deltasOf rec).any (fun d => d ≤ 0) then .done (FloatVal.fin PENALTY)
  else
    let g1 := g1Of rec
    if |g1| < EPS then .done (FloatVal.fin 1)
    else if g1 < 0 then .done (FloatVal.fin PENALTY)
    else .rootFind (coefsOf rec) (deltasOf rec)

/-- The postprocessing solve_recurrence applies to a converged
bracketed root before returning it. -/
def solve_recurrence_post (root : ℚ) : ℚ :=
  snap_int root

/-- The characteristic function g of solver.py over exact rationals,
for integer history depths: the sum of coef times x to the minus delta,
minus one. The source evaluates the same function in log space over
doubles. -/
def gQ (coefs : List ℚ) (deltas : List ℕ) (x : ℚ) : ℚ :=
  ((coefs.zip deltas).map (fun cd => cd.1 / x ^ cd.2)).sum - 1

/-! ### Specification-side definitions

Definitions written from the words of the specification, used to
compare the normalizer against its described output shape. -/

/-- Whether a term is a constant term. -/
def isConstTerm : Term → Bool
  | Term.const _ => true
  | Term.fn _ => false

/-- The shift vector of a function term, none for a constant. -/
def termShifts : Term → Option (List ℚ)
  | Term.fn ft => some ft.shifts
  | Term.const _ => none

/-- The summed coefficient of all constant terms of a term list. -/
def totalConst (raw : List Term) : ℚ :=
  (raw.filterMap (fun t =>
    match t with
    | Term.const c => some c
    | Term.fn _ => none)).sum

/-- The shift vector and coefficient of each function term, in order. -/
def fnPairs (raw : List Term) : List (List ℚ × ℚ) :=
  raw.filterMap (fun t =>
    match t with
    | Term.fn ft => some (ft.shifts, ft.coef)
    | Term.const _ => none)

/-- The distinct keys of a pair list in first-occurrence order. -/
def firstOccKeys : List (List ℚ × ℚ) → List (List ℚ)
  | [] => []
  | (k, _) :: rest => k :: (firstOccKeys rest).filter (fun x => x ≠ k)

/-- The grouped coefficient of a shift vector: the sum of the
coefficients of all function terms sharing that shift vector. -/
def groupCoef (raw : List Term) (k : List ℚ) : ℚ :=
  (((fnPairs raw).filter (fun p => p.1 = k)).map Prod.snd).sum

/-- The normalizer output shape as the specification describes it, read
literally: the combined constant first, only when its magnitude
strictly exceeds the threshold, then one function term per distinct
shift vector in first-occurrence order, only when the grouped
coefficient magnitude strictly exceeds the threshold. -/
def normalizeSpecStrict (raw : List Term) (vars_list : List (List Char))
    (func : List Char) : List Term :=
  (if |totalConst raw| > EPS then [Term.const (totalConst raw)] else []) ++
    (firstOccKeys (fnPairs raw)).filterMap (fun k =>
      if |groupCoef raw k| > EPS then
        some (Term.fn ⟨groupCoef raw k, func, vars_list, k⟩)
      else none)

/-- The amended normalizer output shape: as above, but a function term
is emitted exactly when its grouped coefficient magnitude is at least
the threshold, so a magnitude of exactly the threshold is kept. -/
def normalizeSpecGe (raw : List Term) (vars_list : List (List Char))
    (func : List Char) : List Term :=
  (if |totalConst raw| > EPS then [Term.const (totalConst raw)] else []) ++
    (firstOccKeys (fnPairs raw)).filterMap (fun k =>
      if EPS ≤ |groupCoef raw k| then
        some (Term.fn ⟨groupCoef raw k, func, vars_list, k⟩)
      else none)

/-- Default-zero lookup in an association list keyed by shift vectors. -/
def lookupD (m : List (List ℚ × ℚ)) (k : List ℚ) : ℚ :=
  match m with
  | [] => 0
  | (key, v) :: rest => if key = k then v else lookupD rest k

end Recurrences

deriving instance DecidableEq for Except

namespace Recurrences

section Proofs

attribute [local semireducible] Rat.add Rat.mul Rat.inv Rat.sub

/-! ### Normalizer lemmas: the fold with dict updates equals the
grouped first-occurrence description. -/

theorem lookupD_upsert (m : List (List ℚ × ℚ)) (key : List ℚ) (c : ℚ) (k : List ℚ) :
    lookupD (upsert m key c) k = lookupD m k + (if key = k then c else 0) := by
  induction m with
  | nil =>
    simp [upsert, lookupD]
  | cons hd tl ih =>
    obtain ⟨k1, v⟩ := hd
    by_cases h1 : k1 = key
    · subst h1
      simp only [upsert, if_pos rfl, lookupD]
      by_cases h2 : k1 = k
      · simp [h2]
      · simp [h2]
    · simp only [upsert, if_neg h1, lookupD]
      by_cases h2 : k1 = k
      · subst h2
        have : ¬ key = k1 := fun h => h1 h.symm
        simp [this]
      · simp [h2, ih]

theorem keys_upsert (m : List (List ℚ × ℚ)) (key : List ℚ) (c : ℚ) :
    (upsert m key c).map Prod.fst =
      if key ∈ m.map Prod.fst then m.map Prod.fst else m.map Prod.fst ++ [key] := by
  induction m with
  | nil => simp [upsert]
  | cons hd tl ih =>
    obtain ⟨k1, v⟩ := hd
    by_cases h1 : k1 = key
    · subst h1
      simp [upsert]
    · have h1s : ¬ key = k1 := fun h => h1 h.symm
      simp only [upsert, if_neg h1, List.map_cons, List.mem_cons, h1s, false_or]
      by_cases h2 : key ∈ tl.map Prod.fst
      · simp [h2, ih]
      · simp [h2, ih]

theorem lookupD_eq_zero_of_not_mem (m : List (List ℚ × ℚ)) (k : List ℚ)
    (h : k ∉ m.map Prod.fst) : lookupD m k = 0 := by
  induction m with
  | nil => rfl
  | cons hd tl ih =>
    obtain ⟨k1, v⟩ := hd
    simp only [List.map_cons, List.mem_cons] at h
    push_neg at h
    have : ¬ k1 = k := fun he => h.1 he.symm
    simpa [lookupD, this] using ih h.2

theorem groupCoef_cons_fn (ft : FunctionTerm) (rest : List Term) (k : List ℚ) :
    groupCoef (Term.fn ft :: rest) k =
      (if ft.shifts = k then ft.coef else 0) + groupCoef rest k := by
  simp only [groupCoef, fnPairs, List.filterMap_cons]
  by_cases h : ft.shifts = k
  · simp [h, List.filter_cons, add_comm]
  · simp [h, List.filter_cons]

theorem groupCoef_cons_const (c : ℚ) (rest : List Term) (k : List ℚ) :
    groupCoef (Term.const c :: rest) k = groupCoef rest k := by
  simp [groupCoef, fnPairs, List.filterMap_cons]

theorem fnMapFold_go_lookup (raw : List Term) (m : List (List ℚ × ℚ)) (k : List ℚ) :
    lookupD (raw.foldl (fun m t =>
      match t with
      | Term.const _ => m
      | Term.fn ft => upsert m ft.shifts ft.coef) m) k =
      lookupD m k + groupCoef raw k := by
  induction raw generalizing m with
  | nil => simp [groupCoef, fnPairs]
  | cons hd tl ih =>
    cases hd with
    | const c => simpa [groupCoef_cons_const] using ih m
    | fn ft =>
      simp only [List.foldl_cons]
      rw [ih, lookupD_upsert, groupCoef_cons_fn]
      ring

theorem fnMapFold_go_keys (raw : List Term) (m : List (List ℚ × ℚ)) :
    (raw.foldl (fun m t =>
      match t with
      | Term.const _ => m
      | Term.fn ft => upsert m ft.shifts ft.coef) m).map Prod.fst =
      m.map Prod.fst ++
        (firstOccKeys (fnPairs raw)).filter (fun k => k ∉ m.map Prod.fst) := by
  induction raw generalizing m with
  | nil => simp [fnPairs, firstOccKeys]
  | cons hd tl ih =>
    cases hd with
    | const c =>
      simpa [fnPairs, List.filterMap_cons] using ih m
    | fn ft =>
      simp only [List.foldl_cons, fnPairs, List.filterMap_cons, firstOccKeys]
      rw [ih, keys_upsert]
      by_cases hmem : ft.shifts ∈ m.map Prod.fst
      · rw [if_pos hmem, List.filter_cons_of_neg (by simpa using hmem),
          List.filter_filter]
        rw [show ((List.map Prod.fst m ++ _ = _) = _) from List.append_cancel_left_eq _ _ _]
        apply List.filter_congr
        intro x _
        by_cases hx : x = ft.shifts
        · subst hx
          simp [hmem]
        · simp [hx]
      · rw [if_neg hmem, List.filter_cons_of_pos (by simpa using hmem),
          List.filter_filter, List.append_assoc, List.singleton_append]
        rw [show ((List.map Prod.fst m ++ _ = _) = _) from List.append_cancel_left_eq _ _ _]
        congr 1
        apply List.filter_congr
        intro x _
        by_cases hx : x = ft.shifts
        · subst hx
          simp
        · simp [hx, List.mem_append]

theorem mem_firstOccKeys (l : List (List ℚ × ℚ)) (x : List ℚ) :
    x ∈ firstOccKeys l ↔ x ∈ l.map Prod.fst := by
  induction l with
  | nil => simp [firstOccKeys]
  | cons hd tl ih =>
    obtain ⟨k, v⟩ := hd
    simp only [firstOccKeys, List.mem_cons, List.mem_filter, List.map_cons,
      decide_eq_true_eq, ih]
    constructor
    · rintro (rfl | ⟨hmem, _⟩)
      · exact Or.inl rfl
      · exact Or.inr hmem
    · rintro (rfl | hmem)
      · exact Or.inl rfl
      · by_cases hx : x = k
        · exact Or.inl hx
        · exact Or.inr ⟨hmem, hx⟩

theorem nodup_firstOccKeys (l : List (List ℚ × ℚ)) : (firstOccKeys l).Nodup := by
  induction l with
  | nil => simp [firstOccKeys]
  | cons hd tl ih =>
    obtain ⟨k, v⟩ := hd
    simp only [firstOccKeys]
    refine List.Nodup.cons ?_ (ih.filter _)
    intro hmem
    rcases List.mem_filter.mp hmem with ⟨_, hne⟩
    simp at hne

theorem groupCoef_eq_zero_of_not_mem (raw : List Term) (k : List ℚ)
    (h : k ∉ (fnPairs raw).map Prod.fst) : groupCoef raw k = 0 := by
  have : (fnPairs raw).filter (fun p => p.1 = k) = [] := by
    apply List.filter_eq_nil_iff.mpr
    intro p hp hk
    exact h (List.mem_map.mpr ⟨p, hp, by simpa using hk⟩)
  simp [groupCoef, this]

theorem lookupD_mapKeys (keys : List (List ℚ)) (g : List ℚ → ℚ) (k : List ℚ) :
    lookupD (keys.map (fun key => (key, g key))) k =
      if k ∈ keys then g k else 0 := by
  induction keys with
  | nil => simp [lookupD]
  | cons hd tl ih =>
    simp only [List.map_cons, lookupD, List.mem_cons]
    by_cases h : hd = k
    · subst h
      simp
    · have : ¬ k = hd := fun he => h he.symm
      simp [h, this, ih]

theorem assocExt (l1 l2 : List (List ℚ × ℚ))
    (hkeys : l1.map Prod.fst = l2.map Prod.fst)
    (hnodup : (l1.map Prod.fst).Nodup)
    (hlook : ∀ k, lookupD l1 k = lookupD l2 k) : l1 = l2 := by
  induction l1 generalizing l2 with
  | nil =>
    cases l2 with
    | nil => rfl
    | cons hd tl => simp at hkeys
  | cons hd tl ih =>
    cases l2 with
    | nil => simp at hkeys
    | cons hd2 tl2 =>
      obtain ⟨k1, v1⟩ := hd
      obtain ⟨k2, v2⟩ := hd2
      simp only [List.map_cons, List.cons.injEq] at hkeys
      obtain ⟨hk12, htlkeys⟩ := hkeys
      subst hk12
      have hv : v1 = v2 := by
        have := hlook k1
        simpa [lookupD] using this
      subst hv
      simp only [List.map_cons, List.nodup_cons] at hnodup
      have htl : tl = tl2 := by
        apply ih tl2 htlkeys hnodup.2
        intro k
        by_cases hk : k = k1
        · subst hk
          rw [lookupD_eq_zero_of_not_mem tl k hnodup.1,
            lookupD_eq_zero_of_not_mem tl2 k (htlkeys ▸ hnodup.1)]
        · have := hlook k
          have hne : ¬ k1 = k := fun he => hk he.symm
          simpa [lookupD, hne] using this
      rw [htl]

theorem fnMapFold_eq_grouped (raw : List Term) :
    fnMapFold raw =
      (firstOccKeys (fnPairs raw)).map (fun k => (k, groupCoef raw k)) := by
  have hunfold : fnMapFold raw = raw.foldl (fun m t =>
      match t with
      | Term.const _ => m
      | Term.fn ft => upsert m ft.shifts ft.coef) [] := rfl
  apply assocExt
  · rw [hunfold, fnMapFold_go_keys]
    simp [Function.comp_def]
  · rw [hunfold, fnMapFold_go_keys]
    simp only [List.map_nil, List.nil_append]
    exact ((nodup_firstOccKeys (fnPairs raw)).filter _)
  · intro k
    rw [hunfold, fnMapFold_go_lookup, lookupD_mapKeys]
    simp only [lookupD, zero_add]
    by_cases hk : k ∈ firstOccKeys (fnPairs raw)
    · simp [hk]
    · rw [if_neg hk, groupCoef_eq_zero_of_not_mem raw k]
      intro hmem
      exact hk ((mem_firstOccKeys _ _).mpr hmem)

theorem constFold_go (raw : List Term) (acc : ℚ) :
    raw.foldl (fun acc t =>
      match t with
      | Term.const c => acc + c
      | Term.fn _ => acc) acc = acc + totalConst raw := by
  induction raw generalizing acc with
  | nil => simp [totalConst]
  | cons hd tl ih =>
    cases hd with
    | const c =>
      simp only [List.foldl_cons, totalConst, List.filterMap_cons, List.sum_cons, ih]
      ring
    | fn ft =>
      simpa [totalConst, List.filterMap_cons] using ih acc

theorem constFold_eq_totalConst (raw : List Term) : constFold raw = totalConst raw := by
  rw [show constFold raw = raw.foldl (fun acc t =>
    match t with
    | Term.const c => acc + c
    | Term.fn _ => acc) 0 from rfl, constFold_go]
  ring

theorem combine_eq_specGe (raw : List Term) (v : List (List Char)) (f : List Char) :
    _combine_terms raw v f = normalizeSpecGe raw v f := by
  unfold _combine_terms normalizeSpecGe
  rw [constFold_eq_totalConst, fnMapFold_eq_grouped, List.filterMap_map]
  congr 1
  apply List.filterMap_congr
  intro k _
  by_cases h : |groupCoef raw k| < EPS
  · simp [Function.comp_def, h, not_le.mpr h]
  · simp [Function.comp_def, h, not_lt.mp h]

/-! ### Parser-output lemmas -/

theorem parse_ok_rhs (s : String) (rec : Recurrence) (h : parse_recurrence s = .ok rec) :
    ∃ raw : List Term, rec.rhs = _combine_terms raw rec.lhs.vars rec.lhs.func := by
  rw [parse_recurrence.eq_def] at h
  dsimp only at h
  split at h
  · exact absurd h (by simp)
  · split at h
    · rename_i lhs_str rhs_str heqsplit
      split at h
      · exact absurd h (by simp)
      · split at h
        · exact absurd h (by simp)
        · split at h
          · exact absurd h (by simp)
          · rename_i func raw_args_str heqlhs
            split at h
            · exact absurd h (by simp)
            · split at h
              · exact absurd h (by simp)
              · cases hc : collectVars ((splitOnChar ',' raw_args_str).filter (fun a => a ≠ [])) [] with
                | error e =>
                  rw [hc] at h
                  simp [Bind.bind, Except.bind] at h
                | ok vars_list =>
                  rw [hc] at h
                  simp only [Bind.bind, Except.bind] at h
                  split at h
                  · exact absurd h (by simp)
                  · cases hr : parseRawTerms ((_split_rhs rhs_str).filter (fun t => t ≠ [])) func vars_list with
                    | error e =>
                      rw [hr] at h
                      simp [Except.bind] at h
                    | ok raw_terms =>
                      rw [hr] at h
                      simp only [Except.bind] at h
                      cases h
                      exact ⟨raw_terms, rfl⟩
    · exact absurd h (by simp)

theorem specGe_mem_shape (raw : List Term) (v : List (List Char)) (f : List Char)
    (t : Term) (ht : t ∈ normalizeSpecGe raw v f) :
    t = Term.const (totalConst raw) ∨
      ∃ k, k ∈ firstOccKeys (fnPairs raw) ∧ EPS ≤ |groupCoef raw k| ∧
        t = Term.fn ⟨groupCoef raw k, f, v, k⟩ := by
  unfold normalizeSpecGe at ht
  rw [List.mem_append] at ht
  rcases ht with hc | hf
  · left
    split at hc
    · simpa using hc
    · simp at hc
  · right
    rcases List.mem_filterMap.mp hf with ⟨k, hk, hsome⟩
    refine ⟨k, hk, ?_, ?_⟩
    · by_contra hnot
      rw [if_neg hnot] at hsome
      exact Option.noConfusion hsome
    · by_cases hcond : EPS ≤ |groupCoef raw k|
      · rw [if_pos hcond] at hsome
        exact (Option.some.injEq _ _ ▸ hsome).symm
      · rw [if_neg hcond] at hsome
        exact absurd hsome (by simp)

theorem specGe_tail_no_const (raw : List Term) (v : List (List Char)) (f : List Char) :
    ∀ t ∈ (normalizeSpecGe raw v f).tail, isConstTerm t = false := by
  intro t ht
  unfold normalizeSpecGe at ht
  have hfn : ∀ u ∈ (firstOccKeys (fnPairs raw)).filterMap (fun k =>
      if EPS ≤ |groupCoef raw k| then
        some (Term.fn ⟨groupCoef raw k, f, v, k⟩)
      else none), isConstTerm u = false := by
    intro u hu
    rcases List.mem_filterMap.mp hu with ⟨k, _, hsome⟩
    by_cases hcond : EPS ≤ |groupCoef raw k|
    · rw [if_pos hcond] at hsome
      cases hsome
      rfl
    · rw [if_neg hcond] at hsome
      exact absurd hsome (by simp)
  split at ht
  · exact hfn t (by simpa using ht)
  · simp only [List.nil_append] at ht
    exact hfn t (List.mem_of_mem_tail ht)

theorem specGe_const_count (raw : List Term) (v : List (List Char)) (f : List Char) :
    ((normalizeSpecGe raw v f).filter (fun t => isConstTerm t)).length ≤ 1 := by
  unfold normalizeSpecGe
  rw [List.filter_append]
  have hfn : ((firstOccKeys (fnPairs raw)).filterMap (fun k =>
      if EPS ≤ |groupCoef raw k| then
        some (Term.fn ⟨groupCoef raw k, f, v, k⟩)
      else none)).filter (fun t => isConstTerm t) = [] := by
    apply List.filter_eq_nil_iff.mpr
    intro t ht
    rcases List.mem_filterMap.mp ht with ⟨k, _, hsome⟩
    by_cases hcond : EPS ≤ |groupCoef raw k|
    · rw [if_pos hcond] at hsome
      cases hsome
      simp [isConstTerm]
    · rw [if_neg hcond] at hsome
      exact absurd hsome (by simp)
  rw [hfn, List.append_nil]
  split
  · simp [isConstTerm, List.filter]
  · simp

theorem specGe_shifts_nodup (raw : List Term) (v : List (List Char)) (f : List Char) :
    ((normalizeSpecGe raw v f).filterMap termShifts).Nodup := by
  unfold normalizeSpecGe
  rw [List.filterMap_append]
  have hconst : (if |totalConst raw| > EPS then [Term.const (totalConst raw)] else
      ([] : List Term)).filterMap termShifts = [] := by
    split <;> simp [termShifts]
  rw [hconst, List.nil_append, List.filterMap_filterMap]
  apply List.Nodup.filterMap
  · intro a b k hka hkb
    by_cases hca : EPS ≤ |groupCoef raw a| <;>
      by_cases hcb : EPS ≤ |groupCoef raw b| <;>
        simp [hca, hcb, termShifts, Option.bind] at hka hkb
    · rw [hka.symm] at hkb
      exact hkb.symm
  · exact nodup_firstOccKeys (fnPairs raw)

/-! ### Solver branch lemmas -/

theorem find_root_pre_nonpos_min (ds : List ℚ) (hlen : 2 ≤ ds.length)
    (hmin : minList ds ≤ 0) : find_root_pre ds = .done (FloatVal.fin PENALTY) := by
  unfold find_root_pre
  rw [if_neg (by omega), if_neg (by omega), if_pos hmin]

theorem solve_pre_g1_branches (rec : Recurrence) (hv : rec.lhs.vars.length = 1)
    (hft : funcTermsOf rec ≠ []) (hd : ∀ d ∈ deltasOf rec, 0 < d) :
    (|g1Of rec| < EPS → solve_recurrence_pre rec = .done (FloatVal.fin 1)) ∧
    (g1Of rec ≤ -EPS → solve_recurrence_pre rec = .done (FloatVal.fin PENALTY)) ∧
    (EPS ≤ g1Of rec → solve_recurrence_pre rec = .rootFind (coefsOf rec) (deltasOf rec)) := by
  have hvne : ¬ rec.lhs.vars.length ≠ 1 := by omega
  have hany : ¬ (deltasOf rec).any (fun d => d ≤ 0) = true := by
    simp only [List.any_eq_true, decide_eq_true_eq, not_exists, not_and]
    intro d hdm
    exact not_le.mpr (hd d hdm)
  have heps : (0 : ℚ) < EPS := by norm_num [EPS]
  refine ⟨?_, ?_, ?_⟩
  · intro h1
    unfold solve_recurrence_pre
    rw [if_neg hvne, if_neg hft, if_neg hany, if_pos h1]
  · intro h1
    unfold solve_recurrence_pre
    rw [if_neg hvne, if_neg hft, if_neg hany,
      if_neg (by rw [abs_of_nonpos (by linarith)]; linarith),
      if_pos (by linarith)]
  · intro h1
    unfold solve_recurrence_pre
    rw [if_neg hvne, if_neg hft, if_neg hany,
      if_neg (by rw [abs_of_nonneg (by linarith)]; linarith),
      if_neg (by push_neg; linarith)]

/-! ### Rounding lemmas -/

theorem snap_int_eq_round (r : ℚ) :
    snap_int r = (roundHalfEven (r * 1000000) : ℚ) / 1000000 := by
  unfold snap_int
  dsimp only
  split
  · rename_i hden
    exact_mod_cast (Rat.den_eq_one_iff _).mp hden
  · rfl

theorem roundHalfEven_eq_of_close (q : ℚ) (n : ℤ) (h : |q - n| < 1/2) :
    roundHalfEven q = n := by
  rw [abs_sub_lt_iff] at h
  obtain ⟨h1, h2⟩ := h
  unfold roundHalfEven
  by_cases hge : (n : ℚ) ≤ q
  · have hfl : ⌊q⌋ = n := by
      rw [Int.floor_eq_iff]
      constructor
      · exact_mod_cast hge
      · push_cast
        linarith
    rw [hfl, if_pos (by push_cast [hfl]; linarith)]
  · push_neg at hge
    have hfl : ⌊q⌋ = n - 1 := by
      rw [Int.floor_eq_iff]
      constructor
      · push_cast
        linarith
      · push_cast
        linarith
    have hr : (1:ℚ)/2 < q - ⌊q⌋ := by
      rw [hfl]
      push_cast
      linarith
    rw [if_neg (by push_cast; linarith), if_pos (by push_cast; linarith), hfl]
    ring

theorem snap_int_int_of_close (r : ℚ) (n : ℤ) (h : |r - n| < 1/2000000) :
    snap_int r = n := by
  rw [snap_int_eq_round]
  have : roundHalfEven (r * 1000000) = n * 1000000 := by
    apply roundHalfEven_eq_of_close
    have : r * 1000000 - (n * 1000000 : ℤ) = (r - n) * 1000000 := by
      push_cast
      ring
    rw [this, abs_mul, abs_of_pos (by norm_num : (0:ℚ) < 1000000)]
    calc |r - (n:ℚ)| * 1000000 < 1/2000000 * 1000000 := by
          apply mul_lt_mul_of_pos_right h
          norm_num
      _ = 1/2 := by norm_num
  rw [this]
  push_cast
  ring

theorem roundHalfEven_floor_or_succ (q : ℚ) :
    roundHalfEven q = ⌊q⌋ ∨ roundHalfEven q = ⌊q⌋ + 1 := by
  unfold roundHalfEven
  dsimp only
  split
  · exact Or.inl rfl
  · split
    · exact Or.inr rfl
    · split
      · exact Or.inl rfl
      · exact Or.inr rfl

theorem snap_in_golden_interval (r : ℚ) (h1 : 1618033/1000000 ≤ r)
    (h2 : r ≤ 1618034/1000000) :
    snap_int r = 1618033/1000000 ∨ snap_int r = 1618034/1000000 := by
  rw [snap_int_eq_round]
  have hq1 : (1618033 : ℚ) ≤ r * 1000000 := by
    rw [div_le_iff (by norm_num : (0:ℚ) < 1000000)] at h1
    linarith
  have hq2 : r * 1000000 ≤ (1618034 : ℚ) := by
    rw [le_div_iff (by norm_num : (0:ℚ) < 1000000)] at h2
    linarith
  have hfl1 : (1618033 : ℤ) ≤ ⌊r * 1000000⌋ := Int.le_floor.mpr (by exact_mod_cast hq1)
  have hfl2 : ⌊r * 1000000⌋ ≤ (1618034 : ℤ) := by
    calc ⌊r * 1000000⌋ ≤ ⌊(1618034 : ℚ)⌋ := Int.floor_le_floor hq2
      _ = 1618034 := by exact_mod_cast Int.floor_intCast 1618034
  rcases roundHalfEven_floor_or_succ (r * 1000000) with hre | hre
  · interval_cases h : ⌊r * 1000000⌋
    · left
      rw [hre]
      norm_num
    · right
      rw [hre]
      norm_num
  · have hne : ⌊r * 1000000⌋ ≠ 1618034 := by
      intro hcontra
      have : (1618034 : ℚ) ≤ r * 1000000 := by
        have := Int.floor_le (r * 1000000)
        rw [hcontra] at this
        exact_mod_cast this
      have hq : r * 1000000 = (1618034 : ℚ) := le_antisymm hq2 this
      unfold roundHalfEven at hre
      rw [hq] at hre
      norm_num at hre
    have h3 : ⌊r * 1000000⌋ = 1618033 := by omega
    right
    rw [hre, h3]
    norm_num

/-! ### Characteristic-function monotonicity lemmas -/

theorem gQ_zero_nonempty (c : List ℚ) (d : List ℕ) (x : ℚ) (h : gQ c d x = 0) :
    c.zip d ≠ [] := by
  intro hzip
  unfold gQ at h
  rw [hzip] at h
  norm_num at h

theorem gQ_le_of_coefs_le (c1 c2 : List ℚ) (d : List ℕ) (x : ℚ) (hx : 0 < x)
    (hcc : List.Forall₂ (Rat.instLE.le) c1 c2) : gQ c1 d x ≤ gQ c2 d x := by
  unfold gQ
  have key : ∀ (a b : List ℚ), List.Forall₂ (Rat.instLE.le) a b → ∀ e : List ℕ,
      ((a.zip e).map (fun cd => cd.1 / x ^ cd.2)).sum ≤
        ((b.zip e).map (fun cd => cd.1 / x ^ cd.2)).sum := by
    intro a b hab
    induction hab with
    | nil => intro e; simp
    | cons hhd htl ih =>
      intro e
      cases e with
      | nil => simp
      | cons eh et =>
        simp only [List.zip_cons_cons, List.map_cons, List.sum_cons]
        have hterm := (div_le_div_right (pow_pos hx eh)).mpr hhd
        have htail := ih et
        exact add_le_add hterm htail
  have := key c1 c2 hcc d
  linarith

theorem gQ_sum_anti (c : List ℚ) (d : List ℕ) (x y : ℚ)
    (hc : ∀ a ∈ c, 0 < a) (hx : 1 ≤ x) (hxy : x ≤ y) :
    ((c.zip d).map (fun cd => cd.1 / y ^ cd.2)).sum ≤
      ((c.zip d).map (fun cd => cd.1 / x ^ cd.2)).sum := by
  induction c generalizing d with
  | nil => simp
  | cons a ct ih =>
    cases d with
    | nil => simp
    | cons k dt =>
      simp only [List.zip_cons_cons, List.map_cons, List.sum_cons]
      have hxpos : (0:ℚ) < x := lt_of_lt_of_le one_pos hx
      have hypos : (0:ℚ) < y := lt_of_lt_of_le hxpos hxy
      have hterm : a / y ^ k ≤ a / x ^ k :=
        (div_le_div_left (hc a (List.mem_cons_self a ct)) (pow_pos hypos k)
          (pow_pos hxpos k)).mpr (pow_le_pow_left (le_of_lt hxpos) hxy k)
      have htail := ih dt (fun b hb => hc b (List.mem_cons_of_mem a hb))
      exact add_le_add hterm htail

theorem gQ_strictAnti (c : List ℚ) (d : List ℕ) (x y : ℚ)
    (hc : ∀ a ∈ c, 0 < a) (hd : ∀ k ∈ d, 1 ≤ k) (hx : 1 ≤ x) (hxy : x < y)
    (hne : c.zip d ≠ []) : gQ c d y < gQ c d x := by
  unfold gQ
  cases c with
  | nil => simp at hne
  | cons a ct =>
    cases d with
    | nil => simp at hne
    | cons k dt =>
      simp only [List.zip_cons_cons, List.map_cons, List.sum_cons]
      have hxpos : (0:ℚ) < x := lt_of_lt_of_le one_pos hx
      have hypos : (0:ℚ) < y := lt_trans hxpos hxy
      have hk : k ≠ 0 := by
        have := hd k (List.mem_cons_self k dt)
        omega
      have hhead : a / y ^ k < a / x ^ k :=
        (div_lt_div_left (hc a (List.mem_cons_self a ct)) (pow_pos hypos k)
          (pow_pos hxpos k)).mpr (pow_lt_pow_left hxy (le_of_lt hxpos) hk)
      have htail := gQ_sum_anti ct dt x y
        (fun b hb => hc b (List.mem_cons_of_mem a hb)) hx (le_of_lt hxy)
      linarith

theorem gQ_le_of_deltas_le (c : List ℚ) (d1 d2 : List ℕ) (x : ℚ)
    (hc : ∀ a ∈ c, 0 < a) (hx : 1 ≤ x)
    (hdd : List.Forall₂ (Nat.le) d1 d2) : gQ c d2 x ≤ gQ c d1 x := by
  unfold gQ
  have key : ∀ (e1 e2 : List ℕ), List.Forall₂ (Nat.le) e1 e2 →
      ∀ a : List ℚ, (∀ b ∈ a, 0 < b) →
      ((a.zip e2).map (fun cd => cd.1 / x ^ cd.2)).sum ≤
        ((a.zip e1).map (fun cd => cd.1 / x ^ cd.2)).sum := by
    intro e1 e2 hee
    induction hee with
    | nil => intro a _; simp
    | cons hhd htl ih =>
      intro a ha
      cases a with
      | nil => simp
      | cons b bt =>
        simp only [List.zip_cons_cons, List.map_cons, List.sum_cons]
        have hxpos : (0:ℚ) < x := lt_of_lt_of_le one_pos hx
        have hterm := (div_le_div_left (ha b (List.mem_cons_self b bt))
          (pow_pos hxpos _) (pow_pos hxpos _)).mpr (pow_le_pow_right₀ hx hhd)
        have htail := ih bt (fun u hu => ha u (List.mem_cons_of_mem b hu))
        exact add_le_add hterm htail
  have := key d1 d2 hdd c hc
  linarith

theorem forall2_le_one_le (d1 d2 : List ℕ) (hdd : List.Forall₂ (Nat.le) d1 d2)
    (hd1 : ∀ k ∈ d1, 1 ≤ k) : ∀ k ∈ d2, 1 ≤ k := by
  induction hdd with
  | nil => intro k hk; simp at hk
  | cons hhd htl ih =>
    intro k hk
    rcases List.mem_cons.mp hk with rfl | hk2
    · exact le_trans (hd1 _ (List.mem_cons_self _ _)) hhd
    · exact ih (fun u hu => hd1 u (List.mem_cons_of_mem _ hu)) k hk2

theorem root_le_of_coef_le (c1 c2 : List ℚ) (d : List ℕ) (r1 r2 : ℚ)
    (hc2 : ∀ a ∈ c2, 0 < a) (hd : ∀ k ∈ d, 1 ≤ k)
    (hcc : List.Forall₂ (Rat.instLE.le) c1 c2) (hr1 : 1 ≤ r1) (hr2 : 1 ≤ r2)
    (h1 : gQ c1 d r1 = 0) (h2 : gQ c2 d r2 = 0) : r1 ≤ r2 := by
  by_contra hlt
  push_neg at hlt
  have hne : c2.zip d ≠ [] := gQ_zero_nonempty _ _ _ h2
  have hmono := gQ_le_of_coefs_le c1 c2 d r1 (lt_of_lt_of_le one_pos hr1) hcc
  have hstrict := gQ_strictAnti c2 d r2 r1 hc2 hd hr2 hlt hne
  linarith

theorem root_ge_of_delta_le (c : List ℚ) (d1 d2 : List ℕ) (r1 r2 : ℚ)
    (hc : ∀ a ∈ c, 0 < a) (hd1 : ∀ k ∈ d1, 1 ≤ k)
    (hdd : List.Forall₂ (Nat.le) d1 d2) (hr1 : 1 ≤ r1) (hr2 : 1 ≤ r2)
    (h1 : gQ c d1 r1 = 0) (h2 : gQ c d2 r2 = 0) : r2 ≤ r1 := by
  by_contra hlt
  push_neg at hlt
  have hd2 := forall2_le_one_le d1 d2 hdd hd1
  have hne2 : c.zip d2 ≠ [] := gQ_zero_nonempty _ _ _ h2
  have hmono := gQ_le_of_deltas_le c d1 d2 r1 hc hr1 hdd
  have hstrict := gQ_strictAnti c d2 r1 r2 hc hd2 hr1 hlt hne2
  linarith

/-! ### Claim theorems -/

/-- C1: the round-trip property fails on the accepted input
"T(n) = 2*T(n-1) + -1*T(n-2)": its parse result formats to
"T(n) = 2*T(n-1) - T(n-2)", whose depth-zero minus the parser rejects,
because the rhs is split on plus signs only. -/
theorem roundtrip_fails_on_negative_coefficient :
    (parse_recurrence "T(n) = 2*T(n-1) + -1*T(n-2)").map format_recurrence =
      .ok "T(n) = 2*T(n-1) - T(n-2)" ∧
    (parse_recurrence "T(n) = 2*T(n-1) - T(n-2)").isOk = false := by
  constructor <;> decide

/-- C2 counterexample: at the root value the claim itself cites
(approximately 1.6180339887), the parse-solve-format pipeline renders
"O(1.61804^n)", not "O(1.61803^n)": the 5-digit ceiling rounds the
snapped root 1.618034 up to 1.61804. -/
theorem fibonacci_formats_to_61804 :
    (parse_recurrence "T(n) = T(n-1) + T(n-2)").map
        (fun rec => format_asymptotics rec
          (FloatVal.fin (solve_recurrence_post (16180339887/10000000000)))) =
      .ok (.ok "O(1.61804^n)") ∧ ("O(1.61804^n)" : String) ≠ "O(1.61803^n)" := by
  constructor <;> decide

/-- C2 (amended): parsing "T(n) = T(n-1) + T(n-2)" hands the solver to
the bracketed root finder over coefficients [1, 1] and deltas [1, 2];
the exact characteristic root lies strictly between 1.618033 and
1.618034 (sign change of the characteristic function), and the
formatted asymptotics of the post-processed converged root is exactly
"O(1.61804^n)", the base being rendered at 5 decimal digits rounded up. -/
theorem fibonacci_asymptotics_amended (r : ℚ)
    (h1 : 1618033/1000000 ≤ r) (h2 : r ≤ 1618034/1000000) :
    (parse_recurrence "T(n) = T(n-1) + T(n-2)").map solve_recurrence_pre =
      .ok (.rootFind [1, 1] [1, 2]) ∧
    0 < gQ [1, 1] [1, 2] (1618033/1000000) ∧
    gQ [1, 1] [1, 2] (1618034/1000000) < 0 ∧
    (parse_recurrence "T(n) = T(n-1) + T(n-2)").map
        (fun rec => format_asymptotics rec
          (FloatVal.fin (solve_recurrence_post r))) =
      .ok (.ok "O(1.61804^n)") := by
  refine ⟨by decide, by decide, by decide, ?_⟩
  have hp : parse_recurrence "T(n) = T(n-1) + T(n-2)" =
      .ok ⟨⟨1, "T".toList, ["n".toList], [0]⟩,
        [Term.fn ⟨1, "T".toList, ["n".toList], [-1]⟩,
         Term.fn ⟨1, "T".toList, ["n".toList], [-2]⟩]⟩ := by decide
  rw [hp]
  simp only [Except.map, solve_recurrence_post]
  rcases snap_in_golden_interval r h1 h2 with hs | hs <;> rw [hs] <;> decide

/-- Witness for C2 (amended) at the concrete converged root value
1.6180339887. -/
theorem fibonacci_asymptotics_amended_witness :
    (parse_recurrence "T(n) = T(n-1) + T(n-2)").map
        (fun rec => format_asymptotics rec
          (FloatVal.fin (solve_recurrence_post (16180339887/10000000000)))) =
      .ok (.ok "O(1.61804^n)") :=
  (fibonacci_asymptotics_amended (16180339887/10000000000)
    (by decide) (by decide)).2.2.2

/-- C3: the solver sentinels: find_root on an empty delta list is
positive infinity; on two or more deltas with a non-positive minimum it
is the finite infeasible sentinel of magnitude 1e6 (in particular on
[0, 1] and [-1, 1]), which is distinguishable from infinity; and
solve_recurrence on the parse of "T(n) = 0.5*T(n-1)" returns that same
sentinel. -/
theorem sentinel_outcomes :
    find_root_pre [] = .done FloatVal.inf ∧
    (∀ ds : List ℚ, 2 ≤ ds.length → minList ds ≤ 0 →
      find_root_pre ds = .done (FloatVal.fin PENALTY)) ∧
    find_root_pre [0, 1] = .done (FloatVal.fin PENALTY) ∧
    find_root_pre [-1, 1] = .done (FloatVal.fin PENALTY) ∧
    (parse_recurrence "T(n) = 0.5*T(n-1)").map solve_recurrence_pre =
      .ok (.done (FloatVal.fin PENALTY)) ∧
    FloatVal.fin PENALTY ≠ FloatVal.inf ∧ PENALTY = 1000000 :=
  ⟨by decide, find_root_pre_nonpos_min, by decide, by decide, by decide,
   by decide, rfl⟩

/-- Witness for C3 at the concrete delta list [0, 1]. -/
theorem sentinel_outcomes_witness :
    find_root_pre [0, 1] = .done (FloatVal.fin PENALTY) :=
  sentinel_outcomes.2.1 [0, 1] (by decide) (by decide)

/-- C4 counterexample: the converged root 2.0000009 lies within 1e-6 of
the integer 2, yet the returned value is neither that integer nor the
unmodified root: it is the 6-decimal rounding 2.000001. -/
theorem snap_alters_root_within_epsilon :
    solve_recurrence_post (20000009/10000000) = 2000001/1000000 ∧
    (2000001/1000000 : ℚ) ≠ 20000009/10000000 ∧
    |(20000009/10000000 : ℚ) - 2| < 1/1000000 ∧
    (2000001/1000000 : ℚ) ≠ 2 :=
  ⟨by decide, by decide, by decide, by decide⟩

/-- C4 (amended): the value returned for a converged root is always its
6-decimal half-even rounding; in particular a root within 5e-7 of an
integer comes back as exactly that integer, and any other root comes
back rounded to 6 decimal places rather than unmodified. -/
theorem snap_int_amended (r : ℚ) :
    solve_recurrence_post r = (roundHalfEven (r * 1000000) : ℚ) / 1000000 ∧
    ∀ n : ℤ, |r - (n : ℚ)| < 1/2000000 → solve_recurrence_post r = (n : ℚ) :=
  ⟨snap_int_eq_round r, fun n h => snap_int_int_of_close r n h⟩

/-- Witness for C4 (amended) at the concrete root 1.9999999. -/
theorem snap_int_amended_witness :
    solve_recurrence_post (19999999/10000000) = ((2 : ℤ) : ℚ) :=
  (snap_int_amended (19999999/10000000)).2 2 (by decide)

/-- C5 counterexample: with the single coefficient 1 - 5e-13 the value
g(1) lies in (-1e-12, 0), and solve_recurrence returns exactly 1.0
rather than the infeasible sentinel the claim asserts. -/
theorem small_negative_g1_yields_one :
    solve_recurrence_pre ⟨⟨1, "T".toList, ["n".toList], [0]⟩,
        [Term.fn ⟨1 - 1/2000000000000, "T".toList, ["n".toList], [-1]⟩]⟩ =
      .done (FloatVal.fin 1) ∧
    (SolveOutcome.done (FloatVal.fin 1)) ≠ .done (FloatVal.fin PENALTY) := by
  constructor <;> decide

/-- C5 (amended): for a single-variable recurrence with at least one
retained function term and all deltas positive, any g(1) with
|g(1)| < 1e-12 (the open interval on both sides, including (-1e-12, 0))
yields exactly 1.0; the infeasible sentinel requires g(1) ≤ -1e-12; and
at g(1) ≥ 1e-12 (including exactly 1e-12) the solver proceeds to the
bracketed root finder instead of returning 1.0 directly. -/
theorem g1_branch_amended (rec : Recurrence) (hv : rec.lhs.vars.length = 1)
    (hft : funcTermsOf rec ≠ []) (hd : ∀ d ∈ deltasOf rec, 0 < d) :
    (|g1Of rec| < EPS → solve_recurrence_pre rec = .done (FloatVal.fin 1)) ∧
    (g1Of rec ≤ -EPS → solve_recurrence_pre rec = .done (FloatVal.fin PENALTY)) ∧
    (EPS ≤ g1Of rec →
      solve_recurrence_pre rec = .rootFind (coefsOf rec) (deltasOf rec)) :=
  solve_pre_g1_branches rec hv hft hd

/-- Witness for C5 (amended) at the concrete recurrence with
coefficient 0.5 and delta 1. -/
theorem g1_branch_amended_witness :
    solve_recurrence_pre ⟨⟨1, "T".toList, ["n".toList], [0]⟩,
        [Term.fn ⟨1/2, "T".toList, ["n".toList], [-1]⟩]⟩ =
      .done (FloatVal.fin PENALTY) :=
  (g1_branch_amended _ (by decide) (by decide) (by decide)).2.1 (by decide)

/-- C6 counterexample: a single function term whose coefficient is
exactly 1e-12 is kept by the normalizer, while the claimed output shape
(drop unless the magnitude strictly exceeds 1e-12) would drop it. -/
theorem normalizer_keeps_threshold_coefficient :
    _combine_terms [Term.fn ⟨EPS, "T".toList, ["n".toList], [-1]⟩]
        ["n".toList] "T".toList =
      [Term.fn ⟨EPS, "T".toList, ["n".toList], [-1]⟩] ∧
    normalizeSpecStrict [Term.fn ⟨EPS, "T".toList, ["n".toList], [-1]⟩]
      ["n".toList] "T".toList = [] := by
  constructor <;> decide

/-- C6 (amended): the normalizer output is exactly: the combined
constant first, present iff its magnitude strictly exceeds 1e-12,
followed by one function term per distinct shift vector in
first-occurrence order carrying the grouped coefficient, present iff
that coefficient's magnitude is at least 1e-12 (a magnitude of exactly
1e-12 is kept, not dropped). -/
theorem normalizer_output_shape_amended (raw : List Term)
    (vars_list : List (List Char)) (func : List Char) :
    _combine_terms raw vars_list func = normalizeSpecGe raw vars_list func :=
  combine_eq_specGe raw vars_list func

/-- C7 counterexample: raising the single coefficient from 0.5 to 1
with the delta vector fixed at [1] moves the solver result from the
infeasible sentinel 1e6 down to 1.0, so the recurrence with the larger
coefficient has the strictly smaller numeric result. -/
theorem sentinel_breaks_monotonicity :
    solve_recurrence_pre ⟨⟨1, "T".toList, ["n".toList], [0]⟩,
        [Term.fn ⟨1/2, "T".toList, ["n".toList], [-1]⟩]⟩ =
      .done (FloatVal.fin PENALTY) ∧
    solve_recurrence_pre ⟨⟨1, "T".toList, ["n".toList], [0]⟩,
        [Term.fn ⟨1, "T".toList, ["n".toList], [-1]⟩]⟩ =
      .done (FloatVal.fin 1) ∧
    (1/2 : ℚ) < 1 ∧ (1 : ℚ) < PENALTY :=
  ⟨by decide, by decide, by decide, by decide⟩

/-- C7 (amended): monotonicity holds for the exact characteristic roots
that a converged bracketed search approximates, for positive
coefficients and positive integer deltas: pointwise larger coefficients
never give a smaller root, and pointwise larger deltas never give a
larger root. It fails as stated once a side returns the finite
infeasible sentinel 1e6. -/
theorem root_monotonicity_amended :
    (∀ (c1 c2 : List ℚ) (d : List ℕ) (r1 r2 : ℚ),
      (∀ a ∈ c2, 0 < a) → (∀ k ∈ d, 1 ≤ k) →
      List.Forall₂ (fun a b => a ≤ b) c1 c2 → 1 ≤ r1 → 1 ≤ r2 →
      gQ c1 d r1 = 0 → gQ c2 d r2 = 0 → r1 ≤ r2) ∧
    (∀ (c : List ℚ) (d1 d2 : List ℕ) (r1 r2 : ℚ),
      (∀ a ∈ c, 0 < a) → (∀ k ∈ d1, 1 ≤ k) →
      List.Forall₂ (fun a b => a ≤ b) d1 d2 → 1 ≤ r1 → 1 ≤ r2 →
      gQ c d1 r1 = 0 → gQ c d2 r2 = 0 → r2 ≤ r1) :=
  ⟨root_le_of_coef_le, root_ge_of_delta_le⟩

/-- Witness for C7 (amended): coefficients [1] and [2] over delta [1]
give roots 1 and 2; deltas [1] and [2] over coefficient [1] both give
root 1. -/
theorem root_monotonicity_amended_witness :
    (1 : ℚ) ≤ 2 ∧ (1 : ℚ) ≤ 1 :=
  ⟨root_monotonicity_amended.1 [1] [2] [1] 1 2
      (by decide) (by decide)
      (List.Forall₂.cons (by norm_num) List.Forall₂.nil)
      (by norm_num) (by norm_num) (by decide) (by decide),
   root_monotonicity_amended.2 [1] [1] [2] 1 1
      (by decide) (by decide)
      (List.Forall₂.cons (by norm_num) List.Forall₂.nil)
      (by norm_num) (by norm_num) (by decide) (by decide)⟩

/-- C8: the checked constructors enforce the invariants: building a
FunctionTerm succeeds exactly when vars and shifts have equal length,
building a Recurrence succeeds exactly when the lhs coefficient is 1
and all lhs shifts are 0, and every successfully built value satisfies
the corresponding invariant. -/
theorem constructor_invariants :
    (∀ (coef : ℚ) (func : List Char) (vars : List (List Char)) (shifts : List ℚ),
      ((FunctionTerm.make coef func vars shifts).isOk = true ↔
        vars.length = shifts.length) ∧
      ∀ t, FunctionTerm.make coef func vars shifts = .ok t →
        t.vars.length = t.shifts.length) ∧
    (∀ (lhs : FunctionTerm) (rhs : List Term),
      ((Recurrence.make lhs rhs).isOk = true ↔
        (lhs.coef = 1 ∧ ∀ s ∈ lhs.shifts, s = 0)) ∧
      ∀ r, Recurrence.make lhs rhs = .ok r →
        r.lhs.coef = 1 ∧ ∀ s ∈ r.lhs.shifts, s = 0) := by
  constructor
  · intro coef func vars shifts
    constructor
    · unfold FunctionTerm.make
      split
      · rename_i h
        simp only [Except.isOk, Except.toBool]
        constructor
        · intro hfalse
          exact absurd hfalse (by simp)
        · intro heq
          exact absurd heq h
      · rename_i h
        simp only [Except.isOk, Except.toBool, true_iff]
        omega
    · intro t ht
      unfold FunctionTerm.make at ht
      split at ht
      · exact absurd ht (by simp)
      · rename_i h
        cases ht
        dsimp only
        omega
  · intro lhs rhs
    constructor
    · unfold Recurrence.make
      split
      · rename_i h
        simp only [Except.isOk, Except.toBool]
        constructor
        · intro hfalse
          exact absurd hfalse (by simp)
        · intro heq
          exact absurd heq.1 h
      · split
        · rename_i hc hany
          simp only [Except.isOk, Except.toBool]
          constructor
          · intro hfalse
            exact absurd hfalse (by simp)
          · intro heq
            rcases List.any_eq_true.mp hany with ⟨s, hs, hsne⟩
            exact absurd (heq.2 s hs) (by simpa using hsne)
        · rename_i hc hany
          simp only [Except.isOk, Except.toBool, true_iff]
          refine ⟨not_ne_iff.mp hc, ?_⟩
          intro s hs
          by_contra hne
          exact hany (List.any_eq_true.mpr ⟨s, hs, by simpa using hne⟩)
    · intro r hr
      unfold Recurrence.make at hr
      split at hr
      · exact absurd hr (by simp)
      · split at hr
        · exact absurd hr (by simp)
        · rename_i hc hany
          cases hr
          refine ⟨not_ne_iff.mp hc, ?_⟩
          intro s hs
          by_contra hne
          exact hany (List.any_eq_true.mpr ⟨s, hs, by simpa using hne⟩)

/-- Witness for C8 at concrete constructor calls. -/
theorem constructor_invariants_witness :
    (FunctionTerm.make 2 ("T".toList) ["n".toList] [-1]).isOk = true ∧
    (Recurrence.make ⟨1, "T".toList, ["n".toList], [0]⟩ []).isOk = true :=
  ⟨((constructor_invariants.1 2 ("T".toList) ["n".toList] [-1]).1).mpr (by decide),
   ((constructor_invariants.2 ⟨1, "T".toList, ["n".toList], [0]⟩ []).1).mpr
     (by refine ⟨by decide, ?_⟩; intro s hs; simpa using hs)⟩

/-- C9: every parse result is already normalized: its rhs has at most
one constant term, any constant sits at the head, the function terms
have pairwise distinct shift vectors, and each function term carries
the grouped coefficient of all parsed summands sharing its shift
vector. -/
theorem parser_output_normalized (s : String) (rec : Recurrence)
    (h : parse_recurrence s = .ok rec) :
    ((rec.rhs.filter (fun t => isConstTerm t)).length ≤ 1) ∧
    (∀ t ∈ rec.rhs.tail, isConstTerm t = false) ∧
    ((rec.rhs.filterMap termShifts).Nodup) ∧
    ∃ raw : List Term, rec.rhs = _combine_terms raw rec.lhs.vars rec.lhs.func ∧
      ∀ ft : FunctionTerm, Term.fn ft ∈ rec.rhs →
        ft.coef = groupCoef raw ft.shifts := by
  obtain ⟨raw, hraw⟩ := parse_ok_rhs s rec h
  refine ⟨?_, ?_, ?_, raw, hraw, ?_⟩
  · rw [hraw, combine_eq_specGe]
    exact specGe_const_count raw rec.lhs.vars rec.lhs.func
  · rw [hraw, combine_eq_specGe]
    exact specGe_tail_no_const raw rec.lhs.vars rec.lhs.func
  · rw [hraw, combine_eq_specGe]
    exact specGe_shifts_nodup raw rec.lhs.vars rec.lhs.func
  · intro ft hft
    rw [hraw, combine_eq_specGe] at hft
    rcases specGe_mem_shape raw rec.lhs.vars rec.lhs.func _ hft with hconst | ⟨k, _, _, heq⟩
    · exact absurd hconst (by simp)
    · cases heq
      rfl

/-- Witness for C9 at the concrete input
"T(n) = T(n-1) + 1 + 2*T(n-1)". -/
theorem parser_output_normalized_witness :
    (([Term.const 1, Term.fn ⟨3, "T".toList, ["n".toList], [-1]⟩].filter
      (fun t => isConstTerm t)).length ≤ 1) :=
  (parser_output_normalized "T(n) = T(n-1) + 1 + 2*T(n-1)"
    ⟨⟨1, "T".toList, ["n".toList], [0]⟩,
     [Term.const 1, Term.fn ⟨3, "T".toList, ["n".toList], [-1]⟩]⟩
    (by decide)).1

/-- C10: the formatter renders the infeasible sentinel 1e6 in the same
big-O shape as a genuine root: for any recurrence whose single variable
is named n, the result is exactly "O(1000000^n)" with no dedicated
infeasibility marker. -/
theorem formatter_renders_sentinel_base (rec : Recurrence)
    (h : rec.lhs.vars = ["n".toList]) :
    format_asymptotics rec (FloatVal.fin PENALTY) = .ok "O(1000000^n)" := by
  rw [format_asymptotics, h]
  decide

/-- Witness for C10 at a concrete recurrence. -/
theorem formatter_renders_sentinel_base_witness :
    format_asymptotics ⟨⟨1, "T".toList, ["n".toList], [0]⟩, []⟩
      (FloatVal.fin PENALTY) = .ok "O(1000000^n)" :=
  formatter_renders_sentinel_base _ (by decide)

end Proofs

end Recurrences
